import Mathlib

/-!
Verification of the collagify-tg repository: a shallow embedding of the
day-bucketed aggregation store, the grid image tiler, the ingestion
handlers, and the batch pipeline, with theorems settling the frozen
claims about the program.
-/

/-! ## Calendar-day formatting

The store formats a unix timestamp with Go's `time.Format(time.DateOnly)`
in a fixed local zone (the deployment pins Europe/Moscow, UTC+3).
`dayNumber` is the calendar-day index (days since the unix epoch, in the
configured zone); `civilFromDays` converts a day index to a Gregorian
(year, month, day) triple exactly as Go's time package does.
-/

def tzOffset : Int := 10800

def dayNumber (ts : Int) : Int := (ts + tzOffset) / 86400

def civilFromDays (z0 : Int) : Int × Int × Int :=
  let z := z0 + 719468
  let era := z / 146097
  let doe := z - era * 146097
  let yoe := (doe - doe / 1460 + doe / 36524 - doe / 146096) / 365
  let y := yoe + era * 400
  let doy := doe - (365 * yoe + yoe / 4 - yoe / 100)
  let mp := (5 * doy + 2) / 153
  let d := doy - (153 * mp + 2) / 5 + 1
  let m := mp + (if mp < 10 then 3 else -9)
  (y + (if m ≤ 2 then 1 else 0), m, d)

def daysFromCivil (y m d : Int) : Int :=
  let yy := if m ≤ 2 then y - 1 else y
  let era := yy / 400
  let yoe := yy - era * 400
  let mp := (m + 9) % 12
  let doy := (153 * mp + 2) / 5 + d - 1
  let doe := yoe * 365 + yoe / 4 - yoe / 100 + doy
  era * 146097 + doe - 719468

def pad2 (n : Int) : String :=
  if n < 10 then "0" ++ toString n else toString n

def pad4 (n : Int) : String :=
  if n < 10 then "000" ++ toString n
  else if n < 100 then "00" ++ toString n
  else if n < 1000 then "0" ++ toString n
  else toString n

def dateString (d : Int) : String :=
  let c := civilFromDays d
  pad4 c.1 ++ "-" ++ pad2 c.2.1 ++ "-" ++ pad2 c.2.2

def formatDay (ts : Int) : String := dateString (dayNumber ts)

def formatClock (ts : Int) : String :=
  let s := (ts + tzOffset) % 86400
  pad2 (s / 3600) ++ ":" ++ pad2 (s % 3600 / 60) ++ ":" ++ pad2 (s % 60)

/-- Unix timestamp of a wall-clock instant in the configured (Moscow) zone. -/
def tsOf (y m d hh mi : Int) : Int :=
  daysFromCivil y m d * 86400 + hh * 3600 + mi * 60 - tzOffset

example : (-7 : Int) / 2 = -4 := by decide
example : formatDay (tsOf 2024 8 31 14 19) = "2024-08-31" := by decide
example : formatDay (tsOf 2024 9 1 13 11) = "2024-09-01" := by decide
example : formatClock (tsOf 2024 8 31 14 19) = "14:19:00" := by decide

/-! ## Aggregation store (sqlite `storage` in cmd/storage)

A row of the `links` table and a row of the `chats` table.  The `chats`
table declares `chat_id integer not null primary key`.
-/

structure LinkRow where
  chatID : Int
  timestamp : Int
  url : String
  messageID : Int
deriving DecidableEq

structure ChatRow where
  chatID : Int
  timestamp : Int
deriving DecidableEq

/-- The day-grouped view returned by `storage.Links` (Go type `toCollage`). -/
structure toCollage where
  date : String
  links : List String
deriving DecidableEq

/-- Insert one row into a timestamp-sorted list (models the SQL
`order by timestamp asc` on the scanned rows). -/
def insertTs (r : LinkRow) : List LinkRow → List LinkRow
  | [] => [r]
  | x :: xs => if r.timestamp < x.timestamp then r :: x :: xs else x :: insertTs r xs

def sortTs : List LinkRow → List LinkRow
  | [] => []
  | x :: xs => insertTs x (sortTs xs)

/-- `select timestamp, url, message_id from links where chat_id = ? order by timestamp asc`. -/
def selectLinks (db : List LinkRow) (chat : Int) : List LinkRow :=
  sortTs (db.filter (fun r => r.chatID == chat))

/-- The Go scan loop writes each link into `toCollageArr[i]`, where `i`
always indexes the most recently appended group. -/
def appendToLast (gs : List toCollage) (u : String) : List toCollage :=
  match gs with
  | [] => []
  | [g] => [⟨g.date, g.links ++ [u]⟩]
  | g :: g2 :: rest => g :: appendToLast (g2 :: rest) u

/-- The row-scanning loop of `storage.Links`: accumulate every
`message_id`, start a new day group whenever the formatted day value
changes versus the previous row, and append the link to the last group. -/
def linksLoop : List LinkRow → String → List Int × List toCollage → List Int × List toCollage
  | [], _, acc => acc
  | r :: rest, prevDate, (msgs, gs) =>
    let date := formatDay r.timestamp
    let gs := if prevDate = date then gs else gs ++ [⟨date, []⟩]
    linksLoop rest date (msgs ++ [r.messageID], appendToLast gs r.url)

/-- `storage.Links`: drain the channel's rows into the flat message-id
list and the day-grouped view. -/
def Links (db : List LinkRow) (chat : Int) : List Int × List toCollage :=
  linksLoop (selectLinks db chat) "" ([], [])

/-- `storage.RegisterChat`: `insert into chats (chat_id, timestamp) values(?,?)`
against a table whose `chat_id` is the primary key.  SQLite rejects the
insert with a UNIQUE-constraint (duplicate key) error and leaves the
table unchanged when the key is already present; the `Bool` is `false`
exactly on that error. -/
def RegisterChat (chats : List ChatRow) (chatID ts : Int) : List ChatRow × Bool :=
  if chats.any (fun r => r.chatID == chatID) then (chats, false)
  else (chats ++ [⟨chatID, ts⟩], true)

/-- `storage.Chats`: `select chat_id from chats`. -/
def chatIDs (chats : List ChatRow) : List Int := chats.map ChatRow.chatID

/-- Modelled from the spec: `DeleteLinks(message_ids)` is absent from the
source tree (only the spec and the pipeline's test describe it); §4.1
says it removes the given rows and that deleting an absent id is not an
error. -/
def DeleteLinks (links : List LinkRow) (ids : List Int) : List LinkRow :=
  links.filter (fun r => !(ids.contains r.messageID))

example : Links [⟨1337, tsOf 2024 8 31 14 19, "u1", 8⟩,
                 ⟨1337, tsOf 2024 8 31 15 0, "u2", 9⟩,
                 ⟨1337, tsOf 2024 9 1 13 11, "u3", 10⟩] 1337 =
    ([8, 9, 10],
     [⟨"2024-08-31", ["u1", "u2"]⟩, ⟨"2024-09-01", ["u3"]⟩]) := by decide

/-! ## Image tiler (pkg/image)

A decoded image is a width, a height and a pixel function (packed RGBA
value per coordinate).  `drawSrc` is Go's `draw.Draw(dst, r, src, image.Point, draw.Src)`
for a rectangle `r = [x0, x0+rw) x [y0, y0+rh)`: the source pixel replaces
the destination pixel on `r`, clipped to the destination and source bounds.
-/

structure Img where
  w : Nat
  h : Nat
  pix : Nat → Nat → Nat

/-- `color.White` as a packed RGBA pixel value. -/
def white : Nat := 4294967295

def drawSrc (dst : Img) (x0 y0 rw rh : Nat) (src : Img) : Img :=
  { dst with pix := fun x y =>
      if x0 ≤ x ∧ x < x0 + rw ∧ y0 ≤ y ∧ y < y0 + rh ∧
         x < dst.w ∧ y < dst.h ∧ x - x0 < src.w ∧ y - y0 < src.h then
        src.pix (x - x0) (y - y0)
      else dst.pix x y }

/-- The draw loop of `concat`: image `idx` is blitted into the cell at
column `idx % cols`, row `idx / cols`, with the cell size `iw x ih`
taken from the first image. -/
def drawAll (cols iw ih : Nat) : Img → List (Nat × Img) → Img
  | acc, [] => acc
  | acc, (idx, img) :: rest =>
    drawAll cols iw ih
      (drawSrc acc ((idx % cols) * iw) ((idx / cols) * ih) iw ih img) rest

/-- `concat` (pkg/image): `nil` for an empty input, otherwise a
`cols*w x rows*h` white canvas with each image drawn into its grid cell
in input order. -/
def concat (images : List Img) (rows cols : Nat) : Option Img :=
  match images with
  | [] => none
  | i0 :: _ =>
    let canvas : Img := ⟨cols * i0.w, rows * i0.h, fun _ _ => white⟩
    some (drawAll cols i0.w i0.h canvas images.enum)

/-- Decoding and jpeg-encoding are external codecs; `Concat` only
propagates their failures. -/
structure Codec where
  decode : List Nat → Except String Img
  encode : Img → Except String (List Nat)

/-- Outcome of running a Go function: a returned value, a returned
error, or a runtime panic. -/
inductive GoResult (α : Type) where
  | panic : GoResult α
  | error : String → GoResult α
  | ok : α → GoResult α
deriving DecidableEq

def decodeAll (c : Codec) : List (List Nat) → Except String (List Img)
  | [] => .ok []
  | b :: rest =>
    match c.decode b with
    | .error e => .error e
    | .ok img =>
      match decodeAll c rest with
      | .error e => .error e
      | .ok imgs => .ok (img :: imgs)

/-- `image.Concat`: decode every buffer (first failure returns an
error), tile with `concat`, then jpeg-encode.  On an empty input
`concat` returns `nil` and `jpeg.Encode` dereferences the nil image:
a runtime panic. -/
def Concat (c : Codec) (images : List (List Nat)) (rows cols : Nat) : GoResult (List Nat) :=
  match decodeAll c images with
  | .error e => .error ("concat images: " ++ e)
  | .ok imgs =>
    match concat imgs rows cols with
    | none => .panic
    | some img =>
      match c.encode img with
      | .error e => .error e
      | .ok bs => .ok bs

/-- The layout computation of the pipeline (cmd/main.go):
`cols := min(5, len(images)); rows := len(images)/cols; if len%cols != 0 { rows++ }`.
Go integer division by zero is a runtime panic, modelled as `none`. -/
def layout (n : Nat) : Option (Nat × Nat) :=
  let cols := min 5 n
  if cols = 0 then none
  else some (cols, n / cols + (if n % cols = 0 then 0 else 1))

example : layout 7 = some (5, 2) := by decide
example : layout 1 = some (1, 1) := by decide
example : layout 0 = none := by decide

/-! ## Registration value encoding (badger-era cmd/main.go)

`botHandleMyChatMember` appends the 8-byte little-endian encoding of
`uint64(chat.ID)` to the value stored under the key `"chats"` (creating
the value when the key is absent); the cron handler decodes that value
as consecutive 8-byte little-endian chunks via `int64(binary.LittleEndian.Uint64(chunk))`.
-/

/-- The `uint64(int64)` conversion: the two's-complement bit pattern. -/
def u64ofInt (i : Int) : Nat := (i % (18446744073709551616 : Int)).toNat

/-- The `int64(uint64)` conversion. -/
def i64ofU64 (n : Nat) : Int :=
  if n < 9223372036854775808 then (n : Int) else (n : Int) - 18446744073709551616

/-- `k` little-endian base-256 digits of `n`. -/
def encLE : Nat → Nat → List Nat
  | 0, _ => []
  | k + 1, n => n % 256 :: encLE k (n / 256)

/-- Recompose little-endian base-256 digits. -/
def decLE : List Nat → Nat
  | [] => 0
  | b :: rest => b + 256 * decLE rest

/-- `binary.LittleEndian.PutUint64`. -/
def putUint64LE (n : Nat) : List Nat := encLE 8 n

/-- `App.botHandleMyChatMember` (badger variant): the new value stored
under `"chats"`, given the previous value (`none` = key not found). -/
def handleMyChatMember (chats : Option (List Nat)) (chatID : Int) : List Nat :=
  match chats with
  | none => putUint64LE (u64ofInt chatID)
  | some v => v ++ putUint64LE (u64ofInt chatID)

/-- The stored `"chats"` value after a sequence of registration events,
starting from an absent key. -/
def registerAll (ids : List Int) : Option (List Nat) :=
  ids.foldl (fun st i => some (handleMyChatMember st i)) none

def valOf (o : Option (List Nat)) : List Nat := o.getD []

/-- The chunk loop of `App.cronHandler`: decode consecutive 8-byte
little-endian chunks; a ragged tail would make `val[i:i+8]` panic
(`none`). -/
def decodeChats : List Nat → Option (List Int)
  | [] => some []
  | b0 :: b1 :: b2 :: b3 :: b4 :: b5 :: b6 :: b7 :: rest =>
    (decodeChats rest).map
      (fun l => i64ofU64 (decLE [b0, b1, b2, b3, b4, b5, b6, b7]) :: l)
  | _ => none

example : decodeChats (valOf (registerAll [1337, -5, 1337])) = some [1337, -5, 1337] := by decide

/-! ## Channel-post ingestion (badger-era cmd/main.go)

`botHandleChannelPost` returns `nil` for a post without photos, otherwise
sorts the photo list by `FileSize` ascending with `slices.SortFunc`,
resolves the last (largest) photo through `GetFile`/`FileDownloadLink`,
and stores the link under the key `"<chatID>_<day>_<clock>"`.
-/

structure PhotoSize where
  fileID : String
  fileSize : Int
deriving DecidableEq

structure Message where
  chatID : Int
  date : Int
  photo : List PhotoSize

def insertBySize (p : PhotoSize) : List PhotoSize → List PhotoSize
  | [] => [p]
  | x :: xs => if p.fileSize < x.fileSize then p :: x :: xs else x :: insertBySize p xs

/-- `slices.SortFunc(m.Photo, cmp.Compare on FileSize)`: an ascending
sort by file size. -/
def sortBySize : List PhotoSize → List PhotoSize
  | [] => []
  | x :: xs => insertBySize x (sortBySize xs)

/-- A badger `Set`: overwrite the value if the key exists, else append. -/
def setKV (db : List (String × String)) (k v : String) : List (String × String) :=
  if db.any (fun p => p.1 == k) then
    db.map (fun p => if p.1 == k then (k, v) else p)
  else db ++ [(k, v)]

/-- The key `fmt.Sprintf("%d_%s_%s", chatID, day, clock)` of a stored link. -/
def mkKey (m : Message) : String :=
  toString m.chatID ++ "_" ++ formatDay m.date ++ "_" ++ formatClock m.date

/-- `App.botHandleChannelPost` (badger variant).  `getFile` is the
external `GetFile`/`FileDownloadLink` resolution (fileID to download
link; `none` = the call failed).  Returns the new store, the list of
external `GetFile` calls made, and the returned error. -/
def botHandleChannelPost (getFile : String → Option String)
    (db : List (String × String)) (m : Message) :
    List (String × String) × List String × Option String :=
  if m.photo.isEmpty then (db, [], none)
  else
    match (sortBySize m.photo).getLast? with
    | none => (db, [], none)
    | some largest =>
      match getFile largest.fileID with
      | none => (db, [largest.fileID], some "get file info")
      | some link => (setKV db (mkKey m) link, [largest.fileID], none)

/-! ## Batch pipeline (sqlite-era `App.cronHandler`)

The sqlite-era `cmd/main.go` is absent from the source tree (only its
test and the spec describe it), so the pipeline below is modelled from
the spec, section 4.2.
-/

/-- The external collaborators of one pipeline run: HTTP fetch of a
link's bytes (`none` = failed), `SendPhoto`, and `DeleteMessages`. -/
structure External where
  fetch : String → Option (List Nat)
  sendPhoto : Int → String → List Nat → Bool
  deleteMessages : Int → List Int → Bool

/-- The persistent state owned by the aggregation store. -/
structure Store where
  chats : List ChatRow
  links : List LinkRow

/-- Modelled from the spec: the per-group step of the missing sqlite-era
`App.cronHandler` (spec section 4.2 step 2b): fetch each link (a failed
fetch skips that image), skip the group with an error when zero images
were fetched, compute the layout, tile, and emit the collage named
`collage_<day>.jpg`.  Returns the emitted filename (when emission
succeeded) and the recorded error (when anything failed). -/
def processGroup (ext : External) (codec : Codec) (chat : Int) (g : toCollage) :
    Option String × Option String :=
  let images := g.links.filterMap ext.fetch
  if images.isEmpty then (none, some ("no images for group " ++ g.date))
  else
    match layout images.length with
    | none => (none, some "layout panic")
    | some (cols, rows) =>
      match Concat codec images rows cols with
      | .panic => (none, some "make collage: panic")
      | .error e => (none, some ("make collage: " ++ e))
      | .ok bs =>
        let name := "collage_" ++ g.date ++ ".jpg"
        if ext.sendPhoto chat name bs then (some name, none)
        else (none, some "send collage")

/-- Modelled from the spec: the per-channel step of the missing
sqlite-era `App.cronHandler` (spec section 4.2 steps 2a-2c): drain the
channel's day groups with `storage.Links`, process every group, and -
only after every group of the channel was emitted successfully and the
external `DeleteMessages` call succeeded - delete the drained rows from
the store (section 4.2c together with 4.2b's requirement that a failed
group's rows stay un-deleted).  Returns the new store, the emitted
filenames and the recorded errors. -/
def runChannel (ext : External) (codec : Codec) (st : Store) (chat : Int) :
    Store × List String × List String :=
  let drained := Links st.links chat
  let results := drained.2.map (processGroup ext codec chat)
  let emitted := results.filterMap Prod.fst
  let errs := results.filterMap Prod.snd
  let st' :=
    if drained.2.isEmpty then st
    else if results.all (fun r => r.1.isSome) then
      if ext.deleteMessages chat drained.1 then
        { st with links := DeleteLinks st.links drained.1 }
      else st
    else st
  (st', emitted, errs)

/-- Modelled from the spec: the missing sqlite-era `App.cronHandler`
(spec section 4.2): list the registered channels and run each one,
isolating failures per channel, collecting every emitted artifact and
every recorded error. -/
def cronHandler (ext : External) (codec : Codec) (st : Store) :
    Store × List String × List String :=
  (chatIDs st.chats).foldl
    (fun acc chat =>
      let r := runChannel ext codec acc.1 chat
      (r.1, acc.2.1 ++ r.2.1, acc.2.2 ++ r.2.2))
    (st, [], [])

/-! ## Concrete end-to-end scenario fixtures -/

/-- Externals for the happy-path scenario: every fetch, send and delete
succeeds. -/
def happyExt : External :=
  { fetch := fun _ => some [1]
    sendPhoto := fun _ _ _ => true
    deleteMessages := fun _ _ => true }

/-- A codec whose decode always yields a 1x1 image and whose encode
always succeeds. -/
def happyCodec : Codec :=
  { decode := fun _ => .ok ⟨1, 1, fun _ _ => 0⟩
    encode := fun _ => .ok [0] }

/-- Channel 1337 registered; two links recorded on 2024-08-31 and one
on 2024-09-01. -/
def scenarioStore : Store :=
  { chats := [⟨1337, tsOf 2024 8 30 10 0⟩]
    links := [⟨1337, tsOf 2024 8 31 14 19, "u1", 8⟩,
              ⟨1337, tsOf 2024 8 31 15 0, "u2", 9⟩,
              ⟨1337, tsOf 2024 9 1 13 11, "u3", 10⟩] }

/-- Externals equal to `happyExt` except that the external
`DeleteMessages` call fails. -/
def failDeleteExt : External :=
  { fetch := fun _ => some [1]
    sendPhoto := fun _ _ _ => true
    deleteMessages := fun _ _ => false }

/-! ## Helper lemmas -/

theorem decLE_encLE (k n : Nat) : decLE (encLE k n) = n % 256 ^ k := by
  induction k generalizing n with
  | zero => simp [encLE, decLE, Nat.mod_one]
  | succ k ih =>
    rw [encLE, decLE, ih, pow_succ', Nat.mod_mul]

theorem encLE_length (k n : Nat) : (encLE k n).length = k := by
  induction k generalizing n with
  | zero => rfl
  | succ k ih => simp [encLE, ih]

/-- The `"chats"` value after registering `ids` is the concatenation of
the 8-byte encodings. -/
def encodeAll (ids : List Int) : List Nat :=
  (ids.map (fun i => putUint64LE (u64ofInt i))).flatten

theorem registerAll_some (ids : List Int) (v : List Nat) :
    ids.foldl (fun st i => some (handleMyChatMember st i)) (some v) =
      some (v ++ encodeAll ids) := by
  induction ids generalizing v with
  | nil => simp [encodeAll]
  | cons i rest ih =>
    rw [List.foldl_cons, ih]
    simp [handleMyChatMember, encodeAll]

theorem valOf_registerAll (ids : List Int) : valOf (registerAll ids) = encodeAll ids := by
  cases ids with
  | nil => rfl
  | cons i rest =>
    simp only [registerAll, List.foldl_cons]
    rw [registerAll_some]
    simp [valOf, handleMyChatMember, encodeAll]

theorem decodeChats_chunk (u : Nat) (rest : List Nat) :
    decodeChats (putUint64LE u ++ rest) =
      (decodeChats rest).map (fun l => i64ofU64 (decLE (putUint64LE u)) :: l) := by
  simp [putUint64LE, encLE, decodeChats, decLE]

theorem u64_roundTrip (i : Int) (h1 : -(2 ^ 63) ≤ i) (h2 : i < 2 ^ 63) :
    i64ofU64 (u64ofInt i % 256 ^ 8) = i := by
  have hlt : (18446744073709551616 : Int) > 0 := by decide
  have : u64ofInt i < 256 ^ 8 := by
    unfold u64ofInt
    omega
  rw [Nat.mod_eq_of_lt this]
  unfold i64ofU64 u64ofInt
  split <;> omega

theorem decodeChats_encodeAll (ids : List Int)
    (h : ∀ i ∈ ids, -(2 ^ 63) ≤ i ∧ i < 2 ^ 63) :
    decodeChats (encodeAll ids) = some ids := by
  induction ids with
  | nil => rfl
  | cons i rest ih =>
    have he : encodeAll (i :: rest) = putUint64LE (u64ofInt i) ++ encodeAll rest := by
      simp [encodeAll]
    rw [he, decodeChats_chunk, ih (fun j hj => h j (List.mem_cons_of_mem _ hj))]
    have hr := h i (List.mem_cons_self _ _)
    rw [Option.map_some']
    rw [show decLE (putUint64LE (u64ofInt i)) = u64ofInt i % 256 ^ 8 from decLE_encLE 8 _]
    rw [u64_roundTrip i hr.1 hr.2]

theorem encodeAll_length (ids : List Int) : (encodeAll ids).length = 8 * ids.length := by
  induction ids with
  | nil => rfl
  | cons i rest ih =>
    have he : encodeAll (i :: rest) = putUint64LE (u64ofInt i) ++ encodeAll rest := by
      simp [encodeAll]
    rw [he]
    simp only [List.length_append, ih, putUint64LE, encLE_length, List.length_cons]
    omega

theorem ceil_div_eq_aux (c q r : Nat) (hc : 0 < c) (hr : r < c) :
    (c * q + r) / c + (if (c * q + r) % c = 0 then 0 else 1) = (c * q + r + c - 1) / c := by
  have hdiv : (c * q + r) / c = q := by
    rw [Nat.mul_add_div hc, Nat.div_eq_of_lt hr, Nat.add_zero]
  have hmod : (c * q + r) % c = r := by
    rw [Nat.mul_add_mod, Nat.mod_eq_of_lt hr]
  rw [hdiv, hmod]
  by_cases h0 : r = 0
  · rw [if_pos h0]
    have h2 : c * q + r + c - 1 = (c - 1) + c * q := by omega
    rw [h2, Nat.add_mul_div_left _ _ hc, Nat.div_eq_of_lt (by omega), Nat.zero_add, Nat.add_zero]
  · rw [if_neg h0]
    have hmul : c * (q + 1) = c * q + c := Nat.mul_succ c q
    have h2 : c * q + r + c - 1 = (r - 1) + c * (q + 1) := by omega
    rw [h2, Nat.add_mul_div_left _ _ hc, Nat.div_eq_of_lt (by omega), Nat.zero_add]

theorem ceil_div_eq (n c : Nat) (hc : 0 < c) :
    n / c + (if n % c = 0 then 0 else 1) = (n + c - 1) / c := by
  have h := ceil_div_eq_aux c (n / c) (n % c) hc (Nat.mod_lt n hc)
  rw [Nat.div_add_mod] at h
  exact h

theorem ceil_div_ge (n c : Nat) (hc : 0 < c) : n ≤ ((n + c - 1) / c) * c := by
  rw [← ceil_div_eq n c hc]
  by_cases hr : n % c = 0
  · rw [if_pos hr, Nat.add_zero, Nat.div_mul_cancel (Nat.dvd_of_mod_eq_zero hr)]
  · rw [if_neg hr]
    calc n = c * (n / c) + n % c := (Nat.div_add_mod n c).symm
      _ ≤ c * (n / c) + c := Nat.add_le_add_left (le_of_lt (Nat.mod_lt n hc)) _
      _ = (n / c + 1) * c := by ring

/-! ## Claim theorems (first batch) -/

/-- C1: one pipeline run drains every day group present in the store for
the registered channel 1337 (two links on 2024-08-31, one on 2024-09-01)
and emits one collage per group named with the group's ISO day value;
afterwards draining channel 1337 returns zero message ids and zero
groups. -/
theorem cron_endToEnd :
    (cronHandler happyExt happyCodec scenarioStore).2.1 =
      ["collage_2024-08-31.jpg", "collage_2024-09-01.jpg"] ∧
    Links (cronHandler happyExt happyCodec scenarioStore).1.links 1337 = ([], []) := by
  decide

/-- C3: for every image count `n ≥ 1` the pipeline's layout computation
yields `cols = min 5 n` and `rows = ceil(n / cols)` (the
division-plus-remainder-increment equals the ceiling `(n + cols - 1) / cols`),
hence `rows * cols ≥ n`. -/
theorem layout_cols_rows (n : Nat) (h : 1 ≤ n) :
    layout n = some (min 5 n, (n + min 5 n - 1) / min 5 n) ∧
    n ≤ ((n + min 5 n - 1) / min 5 n) * min 5 n := by
  have hc : 0 < min 5 n := by omega
  refine ⟨?_, ceil_div_ge n (min 5 n) hc⟩
  simp only [layout]
  rw [if_neg (by omega)]
  rw [ceil_div_eq n (min 5 n) hc]

/-- C3 witness: the layout at seven images is five columns and two rows. -/
theorem layout_cols_rows_witness :
    1 ≤ 7 ∧
    (layout 7 = some (min 5 7, (7 + min 5 7 - 1) / min 5 7) ∧
     7 ≤ ((7 + min 5 7 - 1) / min 5 7) * min 5 7) :=
  ⟨by decide, layout_cols_rows 7 (by decide)⟩

/-- C4: on an empty input the code does crash rather than producing a
well-defined no-op result: `image.Concat` jpeg-encodes the nil image
returned by `concat` (a nil dereference panic), and the pipeline's
layout computation divides by `cols = min(5, 0) = 0` (a divide-by-zero
panic, modelled as `none`). -/
theorem concat_empty_panics (codec : Codec) (rows cols : Nat) :
    Concat codec [] rows cols = GoResult.panic ∧ layout 0 = none :=
  ⟨rfl, rfl⟩

/-- C6: link rows for a channel are deleted only after every group's
collage was emitted successfully and the external delete-messages call
succeeded; in particular, when the external delete fails the rows all
remain in the store for the next run. -/
theorem runChannel_atLeastOnce (ext : External) (codec : Codec) (st : Store) (chat : Int) :
    (ext.deleteMessages chat (Links st.links chat).1 = false →
      (runChannel ext codec st chat).1.links = st.links) ∧
    ((runChannel ext codec st chat).1.links ≠ st.links →
      ext.deleteMessages chat (Links st.links chat).1 = true ∧
      ∀ g ∈ (Links st.links chat).2, (processGroup ext codec chat g).1.isSome = true) := by
  constructor
  · intro hdel
    simp only [runChannel]
    split
    · rfl
    · split
      · simp [hdel]
      · rfl
  · intro hne
    simp only [runChannel] at hne
    by_cases hempty : (Links st.links chat).2.isEmpty
    · rw [if_pos hempty] at hne
      exact absurd rfl hne
    · rw [if_neg hempty] at hne
      by_cases hall :
          ((Links st.links chat).2.map (processGroup ext codec chat)).all
            (fun r => r.1.isSome) = true
      · rw [if_pos hall] at hne
        by_cases hdel : ext.deleteMessages chat (Links st.links chat).1 = true
        · refine ⟨hdel, fun g hg => ?_⟩
          exact List.all_eq_true.mp hall _ (List.mem_map_of_mem _ hg)
        · rw [if_neg hdel] at hne
          exact absurd rfl hne
      · rw [if_neg hall] at hne
        exact absurd rfl hne

/-- C6 witness: in the concrete scenario with a failing external
delete-messages call, the link rows survive the run. -/
theorem runChannel_atLeastOnce_witness :
    failDeleteExt.deleteMessages 1337 (Links scenarioStore.links 1337).1 = false ∧
    (runChannel failDeleteExt happyCodec scenarioStore 1337).1.links = scenarioStore.links :=
  ⟨by decide,
   (runChannel_atLeastOnce failDeleteExt happyCodec scenarioStore 1337).1 (by decide)⟩

/-- C7: registering a channel whose `chat_id` is already present fails
with the primary-key (duplicate key) error and leaves the registration
table unchanged. -/
theorem RegisterChat_duplicate (chats : List ChatRow) (c t : Int)
    (h : ∃ r ∈ chats, r.chatID = c) :
    RegisterChat chats c t = (chats, false) := by
  have hany : chats.any (fun r => r.chatID == c) = true := by
    rcases h with ⟨r, hr, hc⟩
    exact List.any_eq_true.mpr ⟨r, hr, by simpa using hc⟩
  simp [RegisterChat, hany]

/-- C7 witness: re-registering chat 1337 fails and changes nothing. -/
theorem RegisterChat_duplicate_witness :
    (∃ r ∈ [(⟨1337, 5⟩ : ChatRow)], r.chatID = 1337) ∧
    RegisterChat [(⟨1337, 5⟩ : ChatRow)] 1337 9 = ([(⟨1337, 5⟩ : ChatRow)], false) :=
  ⟨⟨⟨1337, 5⟩, by decide, rfl⟩,
   RegisterChat_duplicate [⟨1337, 5⟩] 1337 9 ⟨⟨1337, 5⟩, by decide, rfl⟩⟩

/-- C9: the chat-id list decoded by the pipeline from the stored
`"chats"` value (consecutive 8-byte little-endian chunks) equals the
sequence of registered chat ids in registration order, duplicates
included, and each registration appends exactly 8 bytes. -/
theorem chats_roundTrip (ids : List Int)
    (h : ∀ i ∈ ids, -(2 ^ 63) ≤ i ∧ i < 2 ^ 63) :
    decodeChats (valOf (registerAll ids)) = some ids ∧
    (valOf (registerAll ids)).length = 8 * ids.length := by
  rw [valOf_registerAll]
  exact ⟨decodeChats_encodeAll ids h, encodeAll_length ids⟩

/-- C9 witness: registering 1337, -5 and 1337 again stores 24 bytes that
decode back to the same sequence. -/
theorem chats_roundTrip_witness :
    (∀ i ∈ [(1337 : Int), -5, 1337], -(2 ^ 63) ≤ i ∧ i < 2 ^ 63) ∧
    (decodeChats (valOf (registerAll [(1337 : Int), -5, 1337])) = some [1337, -5, 1337] ∧
     (valOf (registerAll [(1337 : Int), -5, 1337])).length = 8 * [(1337 : Int), -5, 1337].length) :=
  ⟨by decide, chats_roundTrip [1337, -5, 1337] (by decide)⟩

/-- C10: a channel post with an empty photo list produces no error,
leaves the store untouched and makes no external call. -/
theorem channelPost_noPhoto (getFile : String → Option String)
    (db : List (String × String)) (m : Message) (h : m.photo = []) :
    botHandleChannelPost getFile db m = (db, [], none) := by
  simp [botHandleChannelPost, h]

/-- C10 witness: a concrete photoless post is a no-op. -/
theorem channelPost_noPhoto_witness :
    (Message.mk 1 0 []).photo = [] ∧
    botHandleChannelPost (fun _ => none) [("k", "v")] (Message.mk 1 0 []) =
      ([("k", "v")], [], none) :=
  ⟨rfl, channelPost_noPhoto (fun _ => none) [("k", "v")] (Message.mk 1 0 []) rfl⟩

/-! ## Sorting lemmas for the photo list -/

theorem mem_insertBySize (p x : PhotoSize) (l : List PhotoSize) :
    x ∈ insertBySize p l ↔ x = p ∨ x ∈ l := by
  induction l with
  | nil => simp [insertBySize]
  | cons y ys ih =>
    simp only [insertBySize]
    split
    · simp [List.mem_cons]
    · simp only [List.mem_cons, ih]
      tauto

theorem mem_sortBySize (x : PhotoSize) (l : List PhotoSize) : x ∈ sortBySize l ↔ x ∈ l := by
  induction l with
  | nil => simp [sortBySize]
  | cons y ys ih => simp [sortBySize, mem_insertBySize, ih]

theorem chain_insertBySize (p : PhotoSize) (l : List PhotoSize)
    (h : List.Chain' (fun a b => a.fileSize ≤ b.fileSize) l) :
    List.Chain' (fun a b => a.fileSize ≤ b.fileSize) (insertBySize p l) := by
  induction l with
  | nil => simp [insertBySize]
  | cons y ys ih =>
    simp only [insertBySize]
    split
    · exact List.chain'_cons.mpr ⟨le_of_lt (by assumption), h⟩
    · have hsplit := List.chain'_cons'.mp h
      refine List.chain'_cons'.mpr ⟨?_, ih hsplit.2⟩
      intro z hz
      cases ys with
      | nil =>
        simp [insertBySize] at hz
        subst hz
        omega
      | cons w ws =>
        simp only [insertBySize] at hz
        split at hz
        · simp at hz
          subst hz
          omega
        · simp at hz
          subst hz
          exact hsplit.1 w (by simp)

theorem chain_sortBySize (l : List PhotoSize) :
    List.Chain' (fun a b => a.fileSize ≤ b.fileSize) (sortBySize l) := by
  induction l with
  | nil => simp [sortBySize]
  | cons y ys ih => exact chain_insertBySize y _ ih

theorem le_getLast_of_chain (l : List PhotoSize) (m : PhotoSize)
    (hc : List.Chain' (fun a b => a.fileSize ≤ b.fileSize) l)
    (hl : l.getLast? = some m) : ∀ x ∈ l, x.fileSize ≤ m.fileSize := by
  induction l with
  | nil => simp at hl
  | cons y ys ih =>
    cases ys with
    | nil =>
      simp at hl
      subst hl
      intro x hx
      simp at hx
      subst hx
      exact le_refl _
    | cons z zs =>
      have hchain := List.chain'_cons.mp hc
      have hl2 : (z :: zs).getLast? = some m := by
        rw [List.getLast?_cons_cons] at hl
        exact hl
      have ihz := ih hchain.2 hl2
      intro x hx
      rcases List.mem_cons.mp hx with rfl | hx2
      · calc x.fileSize ≤ z.fileSize := hchain.1
          _ ≤ m.fileSize := ihz z (by simp)
      · exact ihz x hx2

/-- C8: for every channel post with a non-empty photo list, the handler
resolves (and records) the link of a photo of maximal FileSize: the
photo list is sorted by FileSize ascending and the last element is
resolved through GetFile. -/
theorem channelPost_maxPhoto (getFile : String → Option String)
    (db : List (String × String)) (m : Message) (h : m.photo ≠ []) :
    ∃ p, p ∈ m.photo ∧ (∀ q ∈ m.photo, q.fileSize ≤ p.fileSize) ∧
      (∀ link, getFile p.fileID = some link →
        botHandleChannelPost getFile db m = (setKV db (mkKey m) link, [p.fileID], none)) ∧
      (getFile p.fileID = none →
        botHandleChannelPost getFile db m = (db, [p.fileID], some "get file info")) := by
  have hsne : sortBySize m.photo ≠ [] := by
    intro hcontra
    rcases List.exists_mem_of_ne_nil _ h with ⟨x, hx⟩
    have hmem := (mem_sortBySize x m.photo).mpr hx
    rw [hcontra] at hmem
    simp at hmem
  obtain ⟨p, hp⟩ := Option.isSome_iff_exists.mp (List.getLast?_isSome.mpr hsne)
  have hpmem : p ∈ m.photo :=
    (mem_sortBySize p m.photo).mp (List.mem_of_getLast?_eq_some hp)
  have hpmax : ∀ q ∈ m.photo, q.fileSize ≤ p.fileSize := by
    intro q hq
    exact le_getLast_of_chain _ p (chain_sortBySize m.photo) hp q
      ((mem_sortBySize q m.photo).mpr hq)
  have hempty : ¬(m.photo.isEmpty = true) := by
    simpa [List.isEmpty_iff] using h
  refine ⟨p, hpmem, hpmax, ?_, ?_⟩
  · intro link hl
    simp only [botHandleChannelPost, if_neg hempty, hp, hl]
  · intro hl
    simp only [botHandleChannelPost, if_neg hempty, hp, hl]

/-- C8 witness: with two photos of sizes 2 and 10, the handler records
the resolved link of the size-10 photo. -/
theorem channelPost_maxPhoto_witness :
    (Message.mk 1337 0 [⟨"small", 2⟩, ⟨"big", 10⟩]).photo ≠ [] ∧
    (∃ p, p ∈ (Message.mk 1337 0 [⟨"small", 2⟩, ⟨"big", 10⟩]).photo ∧
      (∀ q ∈ (Message.mk 1337 0 [⟨"small", 2⟩, ⟨"big", 10⟩]).photo,
        q.fileSize ≤ p.fileSize) ∧
      (∀ link, (fun s => some ("L" ++ s)) p.fileID = some link →
        botHandleChannelPost (fun s => some ("L" ++ s)) []
            (Message.mk 1337 0 [⟨"small", 2⟩, ⟨"big", 10⟩]) =
          (setKV [] (mkKey (Message.mk 1337 0 [⟨"small", 2⟩, ⟨"big", 10⟩])) link,
           [p.fileID], none)) ∧
      ((fun s => some ("L" ++ s)) p.fileID = none →
        botHandleChannelPost (fun s => some ("L" ++ s)) []
            (Message.mk 1337 0 [⟨"small", 2⟩, ⟨"big", 10⟩]) =
          ([], [p.fileID], some "get file info"))) :=
  ⟨by decide,
   channelPost_maxPhoto (fun s => some ("L" ++ s)) []
     (Message.mk 1337 0 [⟨"small", 2⟩, ⟨"big", 10⟩]) (by decide)⟩

/-! ## Characterisation of the drain grouping -/

/-- Timestamp of the first row of a day run (0 for the empty run, which
never occurs). -/
def firstTs (l : List LinkRow) : Int :=
  match l with
  | [] => 0
  | r :: _ => r.timestamp

/-- The grouping loop with an explicit open group `g`: rows of the same
formatted day extend `g`, a day change closes `g` and opens a new group. -/
def mergeRun (g : toCollage) : List LinkRow → List toCollage
  | [] => [g]
  | r :: rest =>
    let d := formatDay r.timestamp
    if g.date = d then mergeRun ⟨g.date, g.links ++ [r.url]⟩ rest
    else g :: mergeRun ⟨d, [r.url]⟩ rest

theorem appendToLast_append (gs : List toCollage) (g : toCollage) (u : String) :
    appendToLast (gs ++ [g]) u = gs ++ [⟨g.date, g.links ++ [u]⟩] := by
  induction gs with
  | nil => rfl
  | cons x xs ih =>
    cases xs with
    | nil => rfl
    | cons y ys =>
      show x :: appendToLast ((y :: ys) ++ [g]) u =
        x :: ((y :: ys) ++ [⟨g.date, g.links ++ [u]⟩])
      rw [ih]

theorem formatDay_length (ts : Int) : 2 ≤ (formatDay ts).length := by
  unfold formatDay dateString
  simp only [String.length_append]
  have hdash : ("-" : String).length = 1 := rfl
  omega

theorem formatDay_ne_empty (ts : Int) : formatDay ts ≠ "" := by
  intro h
  have h2 := formatDay_length ts
  rw [h] at h2
  simp at h2

theorem linksLoop_merge (l : List LinkRow) (g : toCollage) (gs : List toCollage)
    (msgs : List Int) :
    linksLoop l g.date (msgs, gs ++ [g]) =
      (msgs ++ l.map LinkRow.messageID, gs ++ mergeRun g l) := by
  induction l generalizing g gs msgs with
  | nil => simp [linksLoop, mergeRun]
  | cons r rest ih =>
    simp only [linksLoop, mergeRun]
    by_cases hd : g.date = formatDay r.timestamp
    · rw [if_pos hd, if_pos hd, appendToLast_append, hd]
      have hdate : (⟨formatDay r.timestamp, g.links ++ [r.url]⟩ : toCollage).date =
          formatDay r.timestamp := rfl
      have step := ih ⟨formatDay r.timestamp, g.links ++ [r.url]⟩ gs (msgs ++ [r.messageID])
      rw [hdate] at step
      rw [step]
      simp
    · rw [if_neg hd, if_neg hd, appendToLast_append]
      have hdate : (⟨formatDay r.timestamp, [r.url]⟩ : toCollage).date =
          formatDay r.timestamp := rfl
      have step := ih ⟨formatDay r.timestamp, [r.url]⟩ (gs ++ [g]) (msgs ++ [r.messageID])
      rw [hdate] at step
      dsimp only
      simp only [List.nil_append]
      rw [step]
      simp

theorem filter_chat_eq (db : List LinkRow) (c : Int) (h : ∀ r ∈ db, r.chatID = c) :
    db.filter (fun r => r.chatID == c) = db := by
  induction db with
  | nil => rfl
  | cons r rest ih =>
    have hr : (r.chatID == c) = true := by
      simpa using h r (List.mem_cons_self _ _)
    simp only [List.filter_cons, hr, if_true]
    rw [ih (fun x hx => h x (List.mem_cons_of_mem _ hx))]

theorem sortTs_sorted (l : List LinkRow)
    (h : List.Chain' (fun a b => a.timestamp < b.timestamp) l) : sortTs l = l := by
  induction l with
  | nil => rfl
  | cons x xs ih =>
    have hxs := (List.chain'_cons'.mp h).2
    rw [sortTs, ih hxs]
    cases xs with
    | nil => rfl
    | cons y ys =>
      have hxy : x.timestamp < y.timestamp := (List.chain'_cons.mp h).1
      simp [insertTs, hxy]

theorem dayNumber_mono (a b : Int) (h : a ≤ b) : dayNumber a ≤ dayNumber b := by
  unfold dayNumber
  exact Int.ediv_le_ediv (by decide) (by omega)

theorem formatDay_eq_of_day_eq (a b : Int) (h : dayNumber a = dayNumber b) :
    formatDay a = formatDay b := by
  unfold formatDay
  rw [h]

theorem mergeRun_runs (l : List LinkRow) (p0 : LinkRow) (ptl : List LinkRow)
    (hmono : List.Chain' (fun a b => dayNumber a.timestamp ≤ dayNumber b.timestamp)
      ((p0 :: ptl) ++ l))
    (hsame : ∀ r ∈ p0 :: ptl, formatDay r.timestamp = formatDay p0.timestamp) :
    ∃ runs : List (List LinkRow),
      runs.flatten = (p0 :: ptl) ++ l ∧
      (∀ run ∈ runs, run ≠ []) ∧
      mergeRun ⟨formatDay p0.timestamp, (p0 :: ptl).map LinkRow.url⟩ l =
        runs.map (fun run => ⟨formatDay (firstTs run), run.map LinkRow.url⟩) ∧
      (∀ run ∈ runs, ∀ r ∈ run, formatDay r.timestamp = formatDay (firstTs run)) ∧
      (runs.map (fun run => dayNumber (firstTs run))).Chain' (· < ·) := by
  induction l generalizing p0 ptl with
  | nil =>
    refine ⟨[p0 :: ptl], by simp, by simp, ?_, ?_, by simp⟩
    · simp [mergeRun, firstTs]
    · intro run hr
      simp only [List.mem_singleton] at hr
      subst hr
      simpa [firstTs] using hsame
  | cons r rest ih =>
    by_cases hd : formatDay p0.timestamp = formatDay r.timestamp
    · have hmono' : List.Chain' (fun a b => dayNumber a.timestamp ≤ dayNumber b.timestamp)
          ((p0 :: (ptl ++ [r])) ++ rest) := by
        have hre : (p0 :: (ptl ++ [r])) ++ rest = (p0 :: ptl) ++ (r :: rest) := by simp
        rw [hre]
        exact hmono
      have hsame' : ∀ x ∈ p0 :: (ptl ++ [r]), formatDay x.timestamp = formatDay p0.timestamp := by
        intro x hx
        rcases List.mem_cons.mp hx with rfl | hx2
        · rfl
        · rcases List.mem_append.mp hx2 with hx3 | hx4
          · exact hsame x (List.mem_cons_of_mem _ hx3)
          · rw [List.mem_singleton] at hx4
            subst hx4
            exact hd.symm
      obtain ⟨runs, h1, h2, h3, h4, h5⟩ := ih p0 (ptl ++ [r]) hmono' hsame'
      refine ⟨runs, ?_, h2, ?_, h4, h5⟩
      · rw [h1]
        simp
      · rw [show mergeRun ⟨formatDay p0.timestamp, (p0 :: ptl).map LinkRow.url⟩ (r :: rest) =
              if formatDay p0.timestamp = formatDay r.timestamp then
                mergeRun ⟨formatDay p0.timestamp,
                  (p0 :: ptl).map LinkRow.url ++ [r.url]⟩ rest
              else ⟨formatDay p0.timestamp, (p0 :: ptl).map LinkRow.url⟩ ::
                mergeRun ⟨formatDay r.timestamp, [r.url]⟩ rest from rfl]
        rw [if_pos hd]
        rw [← h3]
        congr 1
        simp
    · have hmono2 : List.Chain' (fun a b => dayNumber a.timestamp ≤ dayNumber b.timestamp)
          (([r] : List LinkRow) ++ rest) := by
        have := (List.chain'_append.mp hmono).2.1
        simpa using this
      obtain ⟨runs, h1, h2, h3, h4, h5⟩ := ih r [] hmono2 (by
        intro x hx
        rw [List.mem_singleton] at hx
        subst hx
        rfl)
      have hlt : dayNumber p0.timestamp < dayNumber r.timestamp := by
        haveI : IsTrans LinkRow (fun a b => dayNumber a.timestamp ≤ dayNumber b.timestamp) :=
          ⟨fun _ _ _ h1 h2 => le_trans h1 h2⟩
        have hpw := List.chain'_iff_pairwise.mp hmono
        have hle : dayNumber p0.timestamp ≤ dayNumber r.timestamp :=
          (List.pairwise_append.mp hpw).2.2 p0 (List.mem_cons_self _ _)
            r (List.mem_cons_self _ _)
        have hne : dayNumber p0.timestamp ≠ dayNumber r.timestamp := by
          intro heq
          exact hd (formatDay_eq_of_day_eq _ _ heq)
        exact lt_of_le_of_ne hle hne
      refine ⟨(p0 :: ptl) :: runs, ?_, ?_, ?_, ?_, ?_⟩
      · simp only [List.flatten_cons, h1]
        simp
      · intro run hr2
        rcases List.mem_cons.mp hr2 with rfl | hr3
        · exact List.cons_ne_nil _ _
        · exact h2 run hr3
      · rw [show mergeRun ⟨formatDay p0.timestamp, (p0 :: ptl).map LinkRow.url⟩ (r :: rest) =
              if formatDay p0.timestamp = formatDay r.timestamp then
                mergeRun ⟨formatDay p0.timestamp,
                  (p0 :: ptl).map LinkRow.url ++ [r.url]⟩ rest
              else ⟨formatDay p0.timestamp, (p0 :: ptl).map LinkRow.url⟩ ::
                mergeRun ⟨formatDay r.timestamp, [r.url]⟩ rest from rfl]
        rw [if_neg hd, List.map_cons]
        congr 1
      · intro run hr2 x hx
        rcases List.mem_cons.mp hr2 with rfl | hr3
        · exact hsame x hx
        · exact h4 run hr3 x hx
      · rw [List.map_cons]
        refine List.chain'_cons'.mpr ⟨?_, h5⟩
        intro dh hdh
        cases runs with
        | nil => simp at hdh
        | cons ru rus =>
          have hru : ru ≠ [] := h2 ru (List.mem_cons_self _ _)
          cases ru with
          | nil => exact absurd rfl hru
          | cons a as =>
            have ha : a = r := by
              have := h1
              simp only [List.flatten_cons] at this
              have hhead : ((a :: as) ++ rus.flatten).head? = ((r :: []) ++ rest).head? := by
                rw [this]
              simpa using hhead
            subst ha
            simp only [List.map_cons, List.head?_cons, Option.mem_def, Option.some.injEq] at hdh
            subst hdh
            exact hlt

theorem Links_cons (db : List LinkRow) (c : Int) (r : LinkRow) (rest : List LinkRow)
    (hsel : selectLinks db c = r :: rest) :
    Links db c = ((r :: rest).map LinkRow.messageID,
      mergeRun ⟨formatDay r.timestamp, [r.url]⟩ rest) := by
  unfold Links
  rw [hsel]
  simp only [linksLoop]
  rw [if_neg (fun h => formatDay_ne_empty r.timestamp h.symm)]
  simp only [List.nil_append, appendToLast]
  have hdate : (⟨formatDay r.timestamp, [r.url]⟩ : toCollage).date =
      formatDay r.timestamp := rfl
  have step := linksLoop_merge rest ⟨formatDay r.timestamp, [r.url]⟩ [] [r.messageID]
  rw [hdate] at step
  simp only [List.nil_append] at step
  rw [step]
  simp

/-- C2: for every sequence of link insertions for one channel with
strictly increasing timestamps, `storage.Links` returns the flat message
id list in timestamp order and a day-grouped view: the groups split the
rows into consecutive non-empty runs (so every link lies in exactly one
group, in timestamp order within its group), each group is named by the
formatted day of its rows, all rows of a group share that day, and the
groups are ordered by calendar day strictly ascending. -/
theorem Links_drain_spec (db : List LinkRow) (c : Int)
    (hchan : ∀ r ∈ db, r.chatID = c)
    (hinc : List.Chain' (fun a b => a.timestamp < b.timestamp) db) :
    (Links db c).1 = db.map LinkRow.messageID ∧
    ∃ runs : List (List LinkRow),
      runs.flatten = db ∧
      (∀ run ∈ runs, run ≠ []) ∧
      (Links db c).2 = runs.map (fun run => ⟨formatDay (firstTs run), run.map LinkRow.url⟩) ∧
      (∀ run ∈ runs, ∀ r ∈ run, formatDay r.timestamp = formatDay (firstTs run)) ∧
      (runs.map (fun run => dayNumber (firstTs run))).Chain' (· < ·) := by
  have hsel : selectLinks db c = db := by
    unfold selectLinks
    rw [filter_chat_eq db c hchan, sortTs_sorted db hinc]
  cases db with
  | nil =>
    refine ⟨?_, [], by simp, by simp, ?_, by simp, by simp⟩
    · unfold Links
      rw [hsel]
      rfl
    · unfold Links
      rw [hsel]
      rfl
  | cons r rest =>
    have hL := Links_cons _ c r rest hsel
    have hday : List.Chain' (fun a b => dayNumber a.timestamp ≤ dayNumber b.timestamp)
        (r :: rest) :=
      hinc.imp (fun _ _ h => dayNumber_mono _ _ (le_of_lt h))
    have hmono : List.Chain' (fun a b => dayNumber a.timestamp ≤ dayNumber b.timestamp)
        ((r :: ([] : List LinkRow)) ++ rest) := hday
    obtain ⟨runs, h1, h2, h3, h4, h5⟩ := mergeRun_runs rest r [] hmono (by
      intro x hx
      rw [List.mem_singleton] at hx
      subst hx
      rfl)
    have h3' : mergeRun ⟨formatDay r.timestamp, [r.url]⟩ rest =
        runs.map (fun run => ⟨formatDay (firstTs run), run.map LinkRow.url⟩) := h3
    refine ⟨?_, runs, ?_, h2, ?_, h4, h5⟩
    · rw [hL]
    · simpa using h1
    · rw [hL]
      exact h3'

/-- C2 witness: the concrete three-row scenario store satisfies the
hypotheses and the drain specification. -/
theorem Links_drain_spec_witness :
    (∀ r ∈ scenarioStore.links, r.chatID = 1337) ∧
    List.Chain' (fun a b => a.timestamp < b.timestamp) scenarioStore.links ∧
    ((Links scenarioStore.links 1337).1 = scenarioStore.links.map LinkRow.messageID ∧
     ∃ runs : List (List LinkRow),
       runs.flatten = scenarioStore.links ∧
       (∀ run ∈ runs, run ≠ []) ∧
       (Links scenarioStore.links 1337).2 =
         runs.map (fun run => ⟨formatDay (firstTs run), run.map LinkRow.url⟩) ∧
       (∀ run ∈ runs, ∀ r ∈ run, formatDay r.timestamp = formatDay (firstTs run)) ∧
       (runs.map (fun run => dayNumber (firstTs run))).Chain' (· < ·)) := by
  have hchain : List.Chain' (fun a b => a.timestamp < b.timestamp) scenarioStore.links :=
    List.chain'_cons.mpr ⟨by decide,
      List.chain'_cons.mpr ⟨by decide, List.chain'_singleton _⟩⟩
  exact ⟨by decide, hchain, Links_drain_spec scenarioStore.links 1337 (by decide) hchain⟩

/-! ## Pixel-level lemmas for the tiler -/

def imgDefault : Img := ⟨0, 0, fun _ _ => 0⟩

theorem cellUnique (w a b x : Nat) (_hw : 0 < w) (hx : x < w)
    (h1 : a * w ≤ b * w + x) (h2 : b * w + x < a * w + w) : a = b := by
  have hab : a < b + 1 := by
    have hlt : a * w < (b + 1) * w := by
      calc a * w ≤ b * w + x := h1
        _ < b * w + w := by omega
        _ = (b + 1) * w := by ring
    exact lt_of_mul_lt_mul_right hlt (Nat.zero_le w)
  have hba : b < a + 1 := by
    have hlt : b * w < (a + 1) * w := by
      calc b * w ≤ b * w + x := Nat.le_add_right _ _
        _ < a * w + w := h2
        _ = (a + 1) * w := by ring
    exact lt_of_mul_lt_mul_right hlt (Nat.zero_le w)
  omega

theorem drawSrc_pix_miss (dst src : Img) (cols iw ih j t x y : Nat)
    (hiw : 0 < iw) (hih : 0 < ih) (hx : x < iw) (hy : y < ih) (hjt : j ≠ t) :
    (drawSrc dst ((j % cols) * iw) ((j / cols) * ih) iw ih src).pix
        ((t % cols) * iw + x) ((t / cols) * ih + y) =
      dst.pix ((t % cols) * iw + x) ((t / cols) * ih + y) := by
  simp only [drawSrc]
  rw [if_neg]
  rintro ⟨h1, h2, h3, h4, _, _, _, _⟩
  have hcol : j % cols = t % cols := cellUnique iw _ _ x hiw hx h1 h2
  have hrow : j / cols = t / cols := cellUnique ih _ _ y hih hy h3 h4
  apply hjt
  calc j = cols * (j / cols) + j % cols := (Nat.div_add_mod j cols).symm
    _ = cols * (t / cols) + t % cols := by rw [hcol, hrow]
    _ = t := Nat.div_add_mod t cols

theorem drawAll_w (cols iw ih : Nat) (l : List (Nat × Img)) (acc : Img) :
    (drawAll cols iw ih acc l).w = acc.w := by
  induction l generalizing acc with
  | nil => rfl
  | cons p rest ihl =>
    cases p with
    | mk idx img => exact ihl _

theorem drawAll_h (cols iw ih : Nat) (l : List (Nat × Img)) (acc : Img) :
    (drawAll cols iw ih acc l).h = acc.h := by
  induction l generalizing acc with
  | nil => rfl
  | cons p rest ihl =>
    cases p with
    | mk idx img => exact ihl _

theorem drawAll_pix_miss (cols iw ih : Nat) (imgs : List Img) (s t x y : Nat) (acc : Img)
    (hiw : 0 < iw) (hih : 0 < ih) (hx : x < iw) (hy : y < ih)
    (ht : ∀ k, s ≤ k → k < s + imgs.length → k ≠ t) :
    (drawAll cols iw ih acc (imgs.enumFrom s)).pix
        ((t % cols) * iw + x) ((t / cols) * ih + y) =
      acc.pix ((t % cols) * iw + x) ((t / cols) * ih + y) := by
  induction imgs generalizing s acc with
  | nil => rfl
  | cons img rest ihl =>
    show (drawAll cols iw ih
        (drawSrc acc ((s % cols) * iw) ((s / cols) * ih) iw ih img)
        (rest.enumFrom (s + 1))).pix _ _ = _
    rw [ihl (s + 1) _ (fun k hk1 hk2 => ht k (by omega) (by simp; omega))]
    exact drawSrc_pix_miss acc img cols iw ih s t x y hiw hih hx hy
      (ht s (le_refl s) (by simp))

theorem drawAll_pix_hit (cols iw ih rows : Nat) (imgs : List Img) (s t x y : Nat) (acc : Img)
    (hcols : 0 < cols) (hiw : 0 < iw) (hih : 0 < ih) (hx : x < iw) (hy : y < ih)
    (hdims : ∀ img ∈ imgs, img.w = iw ∧ img.h = ih)
    (hacc : acc.w = cols * iw ∧ acc.h = rows * ih)
    (htlo : s ≤ t) (hthi : t < s + imgs.length) (htr : t < rows * cols) :
    (drawAll cols iw ih acc (imgs.enumFrom s)).pix
        ((t % cols) * iw + x) ((t / cols) * ih + y) =
      (imgs.getD (t - s) imgDefault).pix x y := by
  induction imgs generalizing s acc with
  | nil =>
    exact absurd hthi (by simp; omega)
  | cons img rest ihl =>
    show (drawAll cols iw ih
        (drawSrc acc ((s % cols) * iw) ((s / cols) * ih) iw ih img)
        (rest.enumFrom (s + 1))).pix _ _ = _
    by_cases hst : s = t
    · subst hst
      rw [drawAll_pix_miss cols iw ih rest (s + 1) s x y _ hiw hih hx hy
        (fun k hk1 hk2 => by omega)]
      rw [Nat.sub_self, List.getD_cons_zero]
      simp only [drawSrc]
      rw [if_pos]
      · simp
      · have hdimg := hdims img (List.mem_cons_self _ _)
        have hmlt : s % cols < cols := Nat.mod_lt s hcols
        have hdlt : s / cols < rows := (Nat.div_lt_iff_lt_mul hcols).mpr htr
        refine ⟨Nat.le_add_right _ _, Nat.add_lt_add_left hx _,
          Nat.le_add_right _ _, Nat.add_lt_add_left hy _, ?_, ?_, ?_, ?_⟩
        · rw [hacc.1]
          calc (s % cols) * iw + x < (s % cols) * iw + iw := Nat.add_lt_add_left hx _
            _ = (s % cols + 1) * iw := by ring
            _ ≤ cols * iw := Nat.mul_le_mul_right iw hmlt
        · rw [hacc.2]
          calc (s / cols) * ih + y < (s / cols) * ih + ih := Nat.add_lt_add_left hy _
            _ = (s / cols + 1) * ih := by ring
            _ ≤ rows * ih := Nat.mul_le_mul_right ih hdlt
        · rw [Nat.add_sub_cancel_left, hdimg.1]
          exact hx
        · rw [Nat.add_sub_cancel_left, hdimg.2]
          exact hy
    · have hrw := ihl (s + 1)
        (drawSrc acc ((s % cols) * iw) ((s / cols) * ih) iw ih img)
        (fun i hi => hdims i (List.mem_cons_of_mem _ hi)) hacc
        (by omega) (by simp at hthi ⊢; omega)
      rw [hrw]
      have hidx : t - s = (t - (s + 1)) + 1 := by omega
      rw [hidx, List.getD_cons_succ]

/-- C5: for every non-empty list of decoded images and every `rows`,
`cols` with `rows * cols ≥ N`, the tiler builds a canvas of width
`cols * cellWidth` and height `rows * cellHeight` (cell size from the
first image), with image `t` blitted at column `t % cols`, row
`t / cols` in input order, and every cell with no image left as the
white background fill. -/
theorem concat_grid (images : List Img) (rows cols : Nat) (i0 : Img)
    (h0 : images.head? = some i0) (hiw : 0 < i0.w) (hih : 0 < i0.h)
    (hdims : ∀ img ∈ images, img.w = i0.w ∧ img.h = i0.h)
    (hcap : images.length ≤ rows * cols) :
    ∃ canvas, concat images rows cols = some canvas ∧
      canvas.w = cols * i0.w ∧ canvas.h = rows * i0.h ∧
      (∀ t x y, t < images.length → x < i0.w → y < i0.h →
        canvas.pix ((t % cols) * i0.w + x) ((t / cols) * i0.h + y) =
          (images.getD t imgDefault).pix x y) ∧
      (∀ t x y, images.length ≤ t → t < rows * cols → x < i0.w → y < i0.h →
        canvas.pix ((t % cols) * i0.w + x) ((t / cols) * i0.h + y) = white) := by
  cases images with
  | nil => simp at h0
  | cons a rest =>
    have ha : a = i0 := by simpa using h0
    subst ha
    have hcols : 0 < cols := by
      rcases Nat.eq_zero_or_pos cols with hc | hc
      · rw [hc, Nat.mul_zero] at hcap
        simp at hcap
      · exact hc
    refine ⟨drawAll cols a.w a.h ⟨cols * a.w, rows * a.h, fun _ _ => white⟩
      ((a :: rest).enum), rfl, ?_, ?_, ?_, ?_⟩
    · rw [drawAll_w]
    · rw [drawAll_h]
    · intro t x y htl hx hy
      have hhit := drawAll_pix_hit cols a.w a.h rows (a :: rest) 0 t x y
        ⟨cols * a.w, rows * a.h, fun _ _ => white⟩ hcols hiw hih hx hy hdims
        ⟨rfl, rfl⟩ (Nat.zero_le t) (by simpa using htl) (lt_of_lt_of_le htl hcap)
      simpa using hhit
    · intro t x y htl htr hx hy
      have hmiss := drawAll_pix_miss cols a.w a.h (a :: rest) 0 t x y
        ⟨cols * a.w, rows * a.h, fun _ _ => white⟩ hiw hih hx hy
        (fun k hk1 hk2 => by omega)
      simpa using hmiss

/-- C5 witness: a single 1x1 image tiled on a 1x1 grid fills its cell
with its own pixel. -/
theorem concat_grid_witness :
    ([(⟨1, 1, fun _ _ => 7⟩ : Img)].head? = some (⟨1, 1, fun _ _ => 7⟩ : Img)) ∧
    0 < (⟨1, 1, fun _ _ => 7⟩ : Img).w ∧ 0 < (⟨1, 1, fun _ _ => 7⟩ : Img).h ∧
    (∀ img ∈ [(⟨1, 1, fun _ _ => 7⟩ : Img)],
      img.w = (⟨1, 1, fun _ _ => 7⟩ : Img).w ∧ img.h = (⟨1, 1, fun _ _ => 7⟩ : Img).h) ∧
    [(⟨1, 1, fun _ _ => 7⟩ : Img)].length ≤ 1 * 1 ∧
    (∃ canvas, concat [(⟨1, 1, fun _ _ => 7⟩ : Img)] 1 1 = some canvas ∧
      canvas.w = 1 * (⟨1, 1, fun _ _ => 7⟩ : Img).w ∧
      canvas.h = 1 * (⟨1, 1, fun _ _ => 7⟩ : Img).h ∧
      (∀ t x y, t < [(⟨1, 1, fun _ _ => 7⟩ : Img)].length →
        x < (⟨1, 1, fun _ _ => 7⟩ : Img).w → y < (⟨1, 1, fun _ _ => 7⟩ : Img).h →
        canvas.pix ((t % 1) * (⟨1, 1, fun _ _ => 7⟩ : Img).w + x)
            ((t / 1) * (⟨1, 1, fun _ _ => 7⟩ : Img).h + y) =
          ([(⟨1, 1, fun _ _ => 7⟩ : Img)].getD t imgDefault).pix x y) ∧
      (∀ t x y, [(⟨1, 1, fun _ _ => 7⟩ : Img)].length ≤ t → t < 1 * 1 →
        x < (⟨1, 1, fun _ _ => 7⟩ : Img).w → y < (⟨1, 1, fun _ _ => 7⟩ : Img).h →
        canvas.pix ((t % 1) * (⟨1, 1, fun _ _ => 7⟩ : Img).w + x)
            ((t / 1) * (⟨1, 1, fun _ _ => 7⟩ : Img).h + y) = white)) :=
  ⟨rfl, Nat.one_pos, Nat.one_pos,
   fun img him => by
     rw [List.mem_singleton] at him
     subst him
     exact ⟨rfl, rfl⟩,
   by decide,
   concat_grid [(⟨1, 1, fun _ _ => 7⟩ : Img)] 1 1 (⟨1, 1, fun _ _ => 7⟩ : Img) rfl
     Nat.one_pos Nat.one_pos
     (fun img him => by
       rw [List.mem_singleton] at him
       subst him
       exact ⟨rfl, rfl⟩)
     (by decide)⟩
